import Mathlib

/-!
Verification of the bounded LRU cache and the LaTeX output sanitizer of
the chatbot server (`app.py`).

The cache (`class LRU(OrderedDict)`) is modelled as a list of key/value
pairs in insertion/recency order: the head of the list is the least
recently used entry (the one `popitem(last=False)` would remove), the
last element is the most recently used one.  `put` can raise `KeyError`
(when `popitem` is called on an empty dict, which happens exactly when
the capacity is zero and the cache is empty), so it returns `Except`.

The sanitizer (`sanitize_latex` and its helpers) is modelled over
`List Char`; each `re.sub`/`str.replace` call of the source is embedded
as an explicit left-to-right scanner with the same match semantics.
-/

namespace ChatbotSpec

/-- State of the Python `LRU(OrderedDict)` object: the fixed capacity
`maxsize` and the ordered entries (head = least recently used). -/
structure LRU where
  maxsize : Nat
  entries : List (String × String)
  deriving DecidableEq, Repr

/-- Constructor `LRU.__init__`: stores `maxsize` (default 64) without any
validation and starts with an empty dict. -/
def LRU.init (maxsize : Nat := 64) : LRU := ⟨maxsize, []⟩

/-- Method `LRU.get`: on a hit the entry is popped and re-inserted at the
most-recently-used end and its value returned; on a miss `None` is
returned and the state is untouched. -/
def LRU.get (st : LRU) (k : String) : Option String × LRU :=
  match st.entries.find? (fun p => p.1 == k) with
  | some p =>
      (some p.2, ⟨st.maxsize, (st.entries.eraseP (fun q => q.1 == k)) ++ [(k, p.2)]⟩)
  | none => (none, st)

/-- Method `LRU.put`: an existing key is popped first; otherwise, if the
dict is at capacity, `popitem(last=False)` removes the head — raising
`KeyError` if the dict is empty.  The new pair is then appended at the
most-recently-used end. -/
def LRU.put (st : LRU) (k v : String) : Except String LRU :=
  if st.entries.any (fun p => p.1 == k) then
    Except.ok ⟨st.maxsize, (st.entries.eraseP (fun q => q.1 == k)) ++ [(k, v)]⟩
  else if st.maxsize ≤ st.entries.length then
    match st.entries with
    | [] => Except.error "KeyError"
    | _ :: rest => Except.ok ⟨st.maxsize, rest ++ [(k, v)]⟩
  else
    Except.ok ⟨st.maxsize, st.entries ++ [(k, v)]⟩

/-- A cache operation: the two methods callers may invoke. -/
inductive Op where
  | put (k v : String)
  | get (k : String)
  deriving DecidableEq, Repr

/-- One cache operation applied to a state (the value returned by `get`
is discarded, only the state matters for the traces we study). -/
def LRU.step (st : LRU) : Op → Except String LRU
  | Op.put k v => st.put k v
  | Op.get k => Except.ok (st.get k).2

/-- A finite sequence of cache operations, applied left to right. -/
def runOps (st : LRU) : List Op → Except String LRU
  | [] => Except.ok st
  | op :: ops =>
    match st.step op with
    | Except.ok st' => runOps st' ops
    | Except.error e => Except.error e

/-- Keys currently held in the cache, in recency order. -/
def LRU.keys (st : LRU) : List String := st.entries.map Prod.fst

/-- Reachable caches have pairwise distinct keys (a Python dict cannot
hold a key twice). -/
def LRU.WF (st : LRU) : Prop := st.keys.Nodup

instance (st : LRU) : Decidable st.WF := by
  unfold LRU.WF; infer_instance

/-- C2: on a capacity-2 cache, the trace put(A,"1"), put(B,"2"), get(A),
put(C,"3") evicts exactly B (the least-recently-used entry, since the
read of A refreshed it); afterwards get(A) = "1", get(C) = "3" and
get(B) reports not-found. -/
theorem c2_lru_eviction_trace :
    runOps (LRU.init 2) [Op.put "A" "1", Op.put "B" "2", Op.get "A", Op.put "C" "3"]
      = Except.ok ⟨2, [("A", "1"), ("C", "3")]⟩ ∧
    ((⟨2, [("A", "1"), ("C", "3")]⟩ : LRU).get "A").1 = some "1" ∧
    ((⟨2, [("A", "1"), ("C", "3")]⟩ : LRU).get "C").1 = some "3" ∧
    ((⟨2, [("A", "1"), ("C", "3")]⟩ : LRU).get "B").1 = none := by
  exact ⟨rfl, rfl, rfl, rfl⟩

/-- C9: `get` on an absent key returns the not-found marker and returns
the state completely unchanged. -/
theorem c9_get_missing (st : LRU) (k : String) (h : k ∉ st.keys) :
    st.get k = (none, st) := by
  have hfind : st.entries.find? (fun p => p.1 == k) = none := by
    rw [List.find?_eq_none]
    intro p hp
    simp only [beq_iff_eq]
    intro hk
    exact h (by simpa [LRU.keys, hk] using List.mem_map_of_mem Prod.fst hp)
  simp [LRU.get, hfind]

/-- Witness for C9 at a concrete nonempty cache and absent key. -/
theorem c9_get_missing_witness :
    (⟨2, [("x", "1")]⟩ : LRU).get "y" = (none, ⟨2, [("x", "1")]⟩) :=
  c9_get_missing ⟨2, [("x", "1")]⟩ "y" (by decide)

theorem put_ok_of_le (m : Nat) (es : List (String × String)) (k v : String)
    (hcap : 1 ≤ m) (hlen : es.length ≤ m) :
    ∃ es', LRU.put ⟨m, es⟩ k v = Except.ok ⟨m, es'⟩ ∧ es'.length ≤ m := by
  cases hmem : es.any (fun p => p.1 == k) with
  | true =>
    obtain ⟨p, hp, hpk⟩ := List.any_eq_true.1 hmem
    refine ⟨es.eraseP (fun q => q.1 == k) ++ [(k, v)], by simp [LRU.put, hmem], ?_⟩
    have h1 : (es.eraseP (fun q => q.1 == k)).length = es.length - 1 :=
      List.length_eraseP_of_mem hp hpk
    have h2 : 0 < es.length := List.length_pos.2 (List.ne_nil_of_mem hp)
    simp only [List.length_append, h1, List.length_singleton]
    omega
  | false =>
    by_cases hfull : m ≤ es.length
    · obtain ⟨p, rest, hes⟩ : ∃ p rest, es = p :: rest := by
        cases es with
        | nil => exfalso; simp at hfull; omega
        | cons a l => exact ⟨a, l, rfl⟩
      subst hes
      refine ⟨rest ++ [(k, v)],
        by simp [LRU.put, hmem, show m ≤ rest.length + 1 by simpa using hfull], ?_⟩
      simp only [List.length_append, List.length_singleton]
      simp at hlen
      omega
    · refine ⟨es ++ [(k, v)], by simp [LRU.put, hmem, hfull], ?_⟩
      simp only [List.length_append, List.length_singleton]
      omega

theorem get_snd_shape (m : Nat) (es : List (String × String)) (k : String) :
    ∃ es2, (LRU.get ⟨m, es⟩ k).2 = ⟨m, es2⟩ ∧ es2.length = es.length := by
  unfold LRU.get
  cases hf : es.find? (fun p => p.1 == k) with
  | none => exact ⟨es, rfl, rfl⟩
  | some p =>
    refine ⟨es.eraseP (fun q => q.1 == k) ++ [(k, p.2)], rfl, ?_⟩
    have hp := List.mem_of_find?_eq_some hf
    have hpk : (p.1 == k) = true := (List.find?_eq_some.1 hf).1
    have h1 : (es.eraseP (fun q => q.1 == k)).length = es.length - 1 :=
      List.length_eraseP_of_mem hp hpk
    have h2 : 0 < es.length := List.length_pos.2 (List.ne_nil_of_mem hp)
    simp only [List.length_append, h1, List.length_singleton]
    omega

theorem runOps_ok (ops : List Op) (m : Nat) (es : List (String × String))
    (hcap : 1 ≤ m) (hlen : es.length ≤ m) :
    ∃ es', runOps ⟨m, es⟩ ops = Except.ok ⟨m, es'⟩ ∧ es'.length ≤ m := by
  induction ops generalizing es with
  | nil => exact ⟨es, rfl, hlen⟩
  | cons op ops ih =>
    cases op with
    | put k v =>
      obtain ⟨es1, h1, h2⟩ := put_ok_of_le m es k v hcap hlen
      obtain ⟨es', h3, h4⟩ := ih es1 h2
      exact ⟨es', by simp [runOps, LRU.step, h1, h3], h4⟩
    | get k =>
      obtain ⟨es2, hg, hl⟩ := get_snd_shape m es k
      obtain ⟨es', h3, h4⟩ := ih es2 (hl ▸ hlen)
      exact ⟨es', by simp [runOps, LRU.step, hg, h3], h4⟩

/-- C1: starting from a cache of capacity `c ≥ 1`, any sequence of put and
get operations runs without error, and after each operation (i.e. after
every prefix of the sequence) the number of distinct keys held is at most
`c`. -/
theorem c1_cache_capacity_invariant (c : Nat) (hc : 1 ≤ c) (ops : List Op) (n : Nat) :
    ∃ st, runOps (LRU.init c) (ops.take n) = Except.ok st ∧
      st.keys.dedup.length ≤ c := by
  obtain ⟨es', h1, h2⟩ := runOps_ok (ops.take n) c [] hc (by simp)
  refine ⟨⟨c, es'⟩, h1, ?_⟩
  have hsub : List.Sublist (es'.map Prod.fst).dedup (es'.map Prod.fst) :=
    List.dedup_sublist _
  have h3 := hsub.length_le
  simp only [List.length_map] at h3
  simp only [LRU.keys]
  omega

/-- Witness for C1: capacity 1, a two-put trace, observed after both
operations. -/
theorem c1_cache_capacity_invariant_witness :
    ∃ st, runOps (LRU.init 1) ([Op.put "a" "x", Op.put "b" "y"].take 2) = Except.ok st ∧
      st.keys.dedup.length ≤ 1 :=
  c1_cache_capacity_invariant 1 (by decide) [Op.put "a" "x", Op.put "b" "y"] 2

theorem eraseP_no_key (es : List (String × String)) (k : String)
    (hwf : (es.map Prod.fst).Nodup) :
    ∀ p ∈ es.eraseP (fun q => q.1 == k), (p.1 == k) = false := by
  induction es with
  | nil => intro p hp; simp [List.eraseP_nil] at hp
  | cons a es ih =>
    intro p hp
    rw [List.eraseP_cons] at hp
    simp only [List.map_cons, List.nodup_cons] at hwf
    cases ha : a.1 == k with
    | true =>
      rw [ha, cond_true] at hp
      have hak : a.1 = k := by simpa using ha
      have : p.1 ∈ es.map Prod.fst := List.mem_map_of_mem Prod.fst hp
      simp only [beq_eq_false_iff_ne, ne_eq]
      intro hpk
      exact hwf.1 (by rw [hak, ← hpk]; exact this)
    | false =>
      rw [ha, cond_false] at hp
      rcases List.mem_cons.1 hp with h | h
      · rw [h]; exact ha
      · exact ih hwf.2 p h

theorem put_shape (m : Nat) (es : List (String × String)) (k v : String)
    (hwf : (es.map Prod.fst).Nodup) (hcap : 1 ≤ m) :
    ∃ A, LRU.put ⟨m, es⟩ k v = Except.ok ⟨m, A ++ [(k, v)]⟩ ∧
      (∀ p ∈ A, (p.1 == k) = false) ∧ (A.map Prod.fst).Nodup := by
  cases hmem : es.any (fun p => p.1 == k) with
  | true =>
    refine ⟨es.eraseP (fun q => q.1 == k), by simp [LRU.put, hmem], ?_, ?_⟩
    · exact eraseP_no_key es k hwf
    · exact hwf.sublist ((List.eraseP_sublist es).map Prod.fst)
  | false =>
    have hnk : ∀ p ∈ es, (p.1 == k) = false := by
      intro p hp
      by_contra h
      have : es.any (fun q => q.1 == k) = true :=
        List.any_eq_true.2 ⟨p, hp, by simpa using h⟩
      simp [this] at hmem
    by_cases hfull : m ≤ es.length
    · obtain ⟨p, rest, hes⟩ : ∃ p rest, es = p :: rest := by
        cases es with
        | nil => exfalso; simp at hfull; omega
        | cons a l => exact ⟨a, l, rfl⟩
      subst hes
      refine ⟨rest,
        by simp [LRU.put, hmem, show m ≤ rest.length + 1 by simpa using hfull], ?_, ?_⟩
      · exact fun p hp => hnk p (List.mem_cons_of_mem _ hp)
      · simp only [List.map_cons, List.nodup_cons] at hwf
        exact hwf.2
    · exact ⟨es, by simp [LRU.put, hmem, hfull], hnk, hwf⟩

/-- C7: overwriting an existing key replaces its value without changing
the entry count: from any well-formed cache with positive capacity,
putting (k,"1") then (k,"2") makes get k return "2", and the entry count
after the second put equals the count after the first. -/
theorem c7_overwrite (st : LRU) (k : String) (hwf : st.WF) (hcap : 1 ≤ st.maxsize) :
    ∃ st1 st2, st.put k "1" = Except.ok st1 ∧ st1.put k "2" = Except.ok st2 ∧
      (st2.get k).1 = some "2" ∧ st2.entries.length = st1.entries.length := by
  obtain ⟨m, es⟩ := st
  simp only [LRU.WF, LRU.keys] at hwf
  obtain ⟨A, h1, hAk, hAnodup⟩ := put_shape m es k "1" hwf hcap
  have hany : (A ++ [(k, "1")]).any (fun p => p.1 == k) = true := by simp
  have herase : (A ++ [(k, "1")]).eraseP (fun q => q.1 == k) = A := by
    rw [List.eraseP_append_right [(k, "1")] (by intro a ha; simp [hAk a ha])]
    simp [List.eraseP_cons]
  have h2 : LRU.put ⟨m, A ++ [(k, "1")]⟩ k "2" = Except.ok ⟨m, A ++ [(k, "2")]⟩ := by
    simp only [LRU.put, hany, if_true]
    rw [herase]
  have hAnone : A.find? (fun p => p.1 == k) = none := by
    rw [List.find?_eq_none]
    intro p hp
    simp [hAk p hp]
  have hfind : (A ++ [(k, "2")]).find? (fun p => p.1 == k) = some (k, "2") := by
    rw [List.find?_append, hAnone]
    simp
  refine ⟨⟨m, A ++ [(k, "1")]⟩, ⟨m, A ++ [(k, "2")]⟩, h1, h2, ?_, by simp⟩
  simp [LRU.get, hfind]

/-- Witness for C7 at the empty capacity-2 cache. -/
theorem c7_overwrite_witness :
    ∃ st1 st2, (LRU.init 2).put "A" "1" = Except.ok st1 ∧
      st1.put "A" "2" = Except.ok st2 ∧
      (st2.get "A").1 = some "2" ∧ st2.entries.length = st1.entries.length :=
  c7_overwrite (LRU.init 2) "A" (by decide) (by decide)

/-- C8, counterexample: the constructor does not validate its capacity.
Constructing with capacity 0 succeeds (yielding a usable object), and the
very first `put` on it raises `KeyError` (from `popitem` on the empty
dict) instead of being prevented at construction time. -/
theorem c8_capacity_validation_cex :
    LRU.init 0 = ⟨0, []⟩ ∧ (LRU.init 0).put "A" "1" = Except.error "KeyError" :=
  ⟨rfl, rfl⟩

theorem put_ok_of_cap (m : Nat) (es : List (String × String)) (k v : String)
    (hcap : 1 ≤ m) : ∃ st', LRU.put ⟨m, es⟩ k v = Except.ok st' := by
  cases hmem : es.any (fun p => p.1 == k) with
  | true =>
    exact ⟨⟨m, es.eraseP (fun q => q.1 == k) ++ [(k, v)]⟩, by simp [LRU.put, hmem]⟩
  | false =>
    by_cases hfull : m ≤ es.length
    · obtain ⟨p, rest, hes⟩ : ∃ p rest, es = p :: rest := by
        cases es with
        | nil => exfalso; simp at hfull; omega
        | cons a l => exact ⟨a, l, rfl⟩
      subst hes
      exact ⟨⟨m, rest ++ [(k, v)]⟩,
        by simp [LRU.put, hmem, show m ≤ rest.length + 1 by simpa using hfull]⟩
    · exact ⟨⟨m, es ++ [(k, v)]⟩, by simp [LRU.put, hmem, hfull]⟩

/-- C8, amended: the constructor performs no validation (a capacity of 0
is accepted and later makes `put` raise, see the counterexample); but on
any cache whose capacity is positive, `put` always succeeds without
raising and `get` on a missing key returns the absence marker leaving the
state unchanged. -/
theorem c8_no_error_amended (st : LRU) (hcap : 1 ≤ st.maxsize) (k v k' : String)
    (h : k' ∉ st.keys) :
    (∃ st', st.put k v = Except.ok st') ∧ st.get k' = (none, st) := by
  obtain ⟨m, es⟩ := st
  refine ⟨put_ok_of_cap m es k v hcap, ?_⟩
  have hfind : es.find? (fun p => p.1 == k') = none := by
    rw [List.find?_eq_none]
    intro p hp
    simp only [beq_iff_eq]
    intro hk
    exact h (by simpa [LRU.keys, hk] using List.mem_map_of_mem Prod.fst hp)
  simp [LRU.get, hfind]

/-- Witness for C8 (amended) at a concrete cache. -/
theorem c8_no_error_amended_witness :
    (∃ st', (LRU.init 64).put "q" "a" = Except.ok st') ∧
      (LRU.init 64).get "r" = (none, LRU.init 64) :=
  c8_no_error_amended (LRU.init 64) (by decide) "q" "a" "r" (by decide)

/-! ### LaTeX sanitizer

The pipeline of `sanitize_latex` (`app.py` lines 75-95).  Each
`re.sub`/`str.replace` of the source is embedded as a left-to-right
scanner over `List Char` with the semantics of the Python regex engine:
matches are found left to right, are non-overlapping, and replacements
are not rescanned.  The character classes `\d`, `\s` and `[A-Za-z]` are
modelled by their ASCII parts. -/

/-- Characters matched by the lookahead class `[A-Za-z\[\]]` of the first
rewrite in `_collapse_command_backslashes`. -/
def isCmdChar (c : Char) : Bool := c.isAlpha || c == '[' || c == ']'

/-- Whether the lookahead position holds a command character. -/
def headIsCmd : List Char → Bool
  | [] => false
  | c :: _ => isCmdChar c

/-- First rewrite of `_collapse_command_backslashes`:
`re.sub(r"\\\\(?=[A-Za-z\[\]])", r"\\", s)`.  A match consumes exactly
the two backslashes; the lookahead character stays in the input. -/
def collapse1 : List Char → List Char
  | [] => []
  | [a] => [a]
  | a :: b :: rest =>
    if a = '\\' ∧ b = '\\' ∧ headIsCmd rest then '\\' :: collapse1 rest
    else a :: collapse1 (b :: rest)

/-- Result of the second rewrite `re.sub(r"\\{3,}", r"\\", s)` on one
maximal run of `n` consecutive backslashes: three or more collapse to a
single backslash (the quantifier is greedy, so a whole run is a single
match), shorter runs survive. -/
def emitRun (n : Nat) : List Char :=
  if 3 ≤ n then ['\\'] else List.replicate n '\\'

/-- Scanner for the second rewrite, tracking the length of the current
backslash run. -/
def collapse2Go (pending : Nat) : List Char → List Char
  | [] => emitRun pending
  | c :: rest =>
    if c = '\\' then collapse2Go (pending + 1) rest
    else emitRun pending ++ c :: collapse2Go 0 rest

/-- Second rewrite of `_collapse_command_backslashes`. -/
def collapse2 (l : List Char) : List Char := collapse2Go 0 l

/-- `_collapse_command_backslashes` from `app.py`: both backslash
rewrites, in source order. -/
def _collapse_command_backslashes (l : List Char) : List Char :=
  collapse2 (collapse1 l)

/-- The whitespace class `\s` of the source regexes (ASCII part). -/
def isSpaceChar (c : Char) : Bool :=
  c == ' ' || c == '\t' || c == '\n' || c == '\x0b' || c == '\x0c' || c == '\r'

/-- One of the eight length units `pt em ex mm cm in bp px` accepted by
the layout-directive regex; all alternatives are two characters long, so
first-match order does not matter. -/
def isUnitPair (c1 c2 : Char) : Bool :=
  (c1 == 'p' && c2 == 't') || (c1 == 'e' && c2 == 'm') || (c1 == 'e' && c2 == 'x') ||
  (c1 == 'm' && c2 == 'm') || (c1 == 'c' && c2 == 'm') || (c1 == 'i' && c2 == 'n') ||
  (c1 == 'b' && c2 == 'p') || (c1 == 'p' && c2 == 'x')

/-- Optional fractional part `(?:\.\d+)?`.  On a dot not followed by a
digit the whole directive match fails either way (no unit can consume
the leftover dot), so this returns `none` there. -/
def fracPart : List Char → Option (List Char)
  | [] => some []
  | c :: r =>
    if c = '.' then
      if (r.takeWhile Char.isDigit).isEmpty then none
      else some (r.dropWhile Char.isDigit)
    else some (c :: r)

/-- Attempt to match `\s*\d+(?:\.\d+)?\s*(?:pt|em|ex|mm|cm|in|bp|px)\s*\]`
— the body of the layout-directive regex after its opening bracket —
returning the remainder of the text after the closing bracket.  The
character classes are pairwise disjoint, so the backtracking regex is
equivalent to this greedy deterministic parse. -/
def matchDirective (l : List Char) : Option (List Char) :=
  if ((l.dropWhile isSpaceChar).takeWhile Char.isDigit).isEmpty then none
  else
    match fracPart ((l.dropWhile isSpaceChar).dropWhile Char.isDigit) with
    | none => none
    | some l3 =>
      match l3.dropWhile isSpaceChar with
      | c1 :: c2 :: l5 =>
        if isUnitPair c1 c2 then
          match l5.dropWhile isSpaceChar with
          | ']' :: rem => some rem
          | _ => none
        else none
      | _ => none

theorem length_dropWhile_le (p : Char → Bool) (l : List Char) :
    (l.dropWhile p).length ≤ l.length := by
  have h := congrArg List.length (List.takeWhile_append_dropWhile (p := p) (l := l))
  simp only [List.length_append] at h
  omega

theorem fracPart_length_le (l r : List Char) (h : fracPart l = some r) :
    r.length ≤ l.length := by
  cases l with
  | nil =>
    simp only [fracPart, Option.some_inj] at h
    subst h
    simp
  | cons c t =>
    simp only [fracPart] at h
    by_cases hc : c = '.'
    · rw [if_pos hc] at h
      by_cases he : (t.takeWhile Char.isDigit).isEmpty
      · simp [he] at h
      · rw [if_neg he] at h
        simp only [Option.some_inj] at h
        have hle := length_dropWhile_le Char.isDigit t
        subst h
        simp only [List.length_cons]
        omega
    · rw [if_neg hc] at h
      simp only [Option.some_inj] at h
      subst h
      exact le_refl _

theorem matchDirective_length_le (l rem : List Char) (h : matchDirective l = some rem) :
    rem.length ≤ l.length := by
  unfold matchDirective at h
  split at h
  · exact absurd h (by simp)
  · split at h
    · exact absurd h (by simp)
    · rename_i l3 hfrac
      have hb1 : l3.length ≤ l.length := by
        have := fracPart_length_le _ _ hfrac
        have h2 := length_dropWhile_le Char.isDigit (l.dropWhile isSpaceChar)
        have h3 := length_dropWhile_le isSpaceChar l
        omega
      split at h
      · rename_i c1 c2 l5 hdrop
        have hb2 : l5.length + 2 ≤ l3.length := by
          have := congrArg List.length hdrop
          have h2 := length_dropWhile_le isSpaceChar l3
          simp only [List.length_cons] at this
          omega
        split at h
        · split at h
          · rename_i rem' hdrop2
            have hb3 : rem'.length + 1 ≤ l5.length := by
              have := congrArg List.length hdrop2
              have h2 := length_dropWhile_le isSpaceChar l5
              simp only [List.length_cons] at this
              omega
            simp only [Option.some_inj] at h
            subst h
            omega
          · exact absurd h (by simp)
        · exact absurd h (by simp)
      · exact absurd h (by simp)

/-- Fuel-driven scanner for
`re.sub(r"\[\s*\d+(?:\.\d+)?\s*(?:pt|em|ex|mm|cm|in|bp|px)\s*\]", "", s)`:
only an opening bracket can start a match; on a match the directive is
deleted and scanning resumes after it; otherwise the character is kept
and scanning moves one position right.  The fuel only serves
termination; `l.length` steps always suffice. -/
def stripGo : Nat → List Char → List Char
  | 0, l => l
  | _ + 1, [] => []
  | fuel + 1, c :: rest =>
    if c = '[' then
      match matchDirective rest with
      | some rem => stripGo fuel rem
      | none => '[' :: stripGo fuel rest
    else c :: stripGo fuel rest

/-- The layout-directive deletion, line 90 of `app.py`. -/
def stripLayout (l : List Char) : List Char := stripGo l.length l

theorem stripGo_fuel (f1 : Nat) : ∀ (f2 : Nat) (l : List Char),
    l.length ≤ f1 → l.length ≤ f2 → stripGo f1 l = stripGo f2 l := by
  induction f1 with
  | zero =>
    intro f2 l h1 _
    have : l = [] := List.eq_nil_of_length_eq_zero (by omega)
    subst this
    cases f2 <;> rfl
  | succ f1 ih =>
    intro f2 l h1 h2
    cases l with
    | nil => cases f2 <;> rfl
    | cons c rest =>
      cases f2 with
      | zero => simp at h2
      | succ f2 =>
        simp only [List.length_cons] at h1 h2
        simp only [stripGo]
        by_cases hc : c = '['
        · simp only [hc, if_true]
          cases hm : matchDirective rest with
          | some rem =>
            have := matchDirective_length_le rest rem hm
            exact ih f2 rem (by omega) (by omega)
          | none =>
            rw [ih f2 rest (by omega) (by omega)]
        · simp only [hc, if_false]
          rw [ih f2 rest (by omega) (by omega)]

theorem stripLayout_cons (c : Char) (rest : List Char) :
    stripLayout (c :: rest) =
      if c = '[' then
        match matchDirective rest with
        | some rem => stripLayout rem
        | none => '[' :: stripLayout rest
      else c :: stripLayout rest := by
  show stripGo (rest.length + 1) (c :: rest) = _
  simp only [stripGo]
  by_cases hc : c = '['
  · simp only [hc, if_true]
    cases hm : matchDirective rest with
    | some rem =>
      have := matchDirective_length_le rest rem hm
      exact stripGo_fuel rest.length rem.length rem (by omega) (by omega)
    | none => rfl
  · simp only [hc, if_false]
    rfl

/-- Characters whose spurious escaping is removed inside math spans:
the class `[=\(\)\[\]\+\-\*/\^_]` of
`re.sub(r"\\([=\(\)\[\]\+\-\*/\^_])", r"\1", math)`. -/
def isMathPunct (c : Char) : Bool :=
  c == '=' || c == '(' || c == ')' || c == '[' || c == ']' ||
  c == '+' || c == '-' || c == '*' || c == '/' || c == '^' || c == '_'

/-- The escaped-punctuation rewrite inside a math span: a backslash
directly followed by a punctuation character is deleted (the character
is part of the match, so scanning resumes after it). -/
def dropEsc : List Char → List Char
  | [] => []
  | [a] => [a]
  | a :: b :: rest =>
    if a = '\\' ∧ isMathPunct b then b :: dropEsc rest
    else a :: dropEsc (b :: rest)

/-- `str.replace(r"\left\[", r"\left[")`: left-to-right, non-overlapping,
replacements not rescanned. -/
def replLeft : List Char → List Char
  | '\\' :: 'l' :: 'e' :: 'f' :: 't' :: '\\' :: '[' :: rest =>
      '\\' :: 'l' :: 'e' :: 'f' :: 't' :: '[' :: replLeft rest
  | c :: rest => c :: replLeft rest
  | [] => []

/-- `str.replace(r"\right\]", r"\right]")`. -/
def replRight : List Char → List Char
  | '\\' :: 'r' :: 'i' :: 'g' :: 'h' :: 't' :: '\\' :: ']' :: rest =>
      '\\' :: 'r' :: 'i' :: 'g' :: 'h' :: 't' :: ']' :: replRight rest
  | c :: rest => c :: replRight rest
  | [] => []

/-- `_fix_overescape_in_math` from `app.py`: the two literal replacements
followed by the escaped-punctuation rewrite. -/
def _fix_overescape_in_math (m : List Char) : List Char :=
  dropEsc (replRight (replLeft m))

/-- Split a text at the first occurrence of the two-character delimiter
`p0 p1`, returning the parts before and after it. -/
def splitFirst (p0 p1 : Char) : List Char → Option (List Char × List Char)
  | [] => none
  | [_] => none
  | a :: b :: rest =>
    if a = p0 ∧ b = p1 then some ([], rest)
    else
      match splitFirst p0 p1 (b :: rest) with
      | some (pre, post) => some (a :: pre, post)
      | none => none

theorem splitFirst_eq (p0 p1 : Char) : ∀ (l pre post : List Char),
    splitFirst p0 p1 l = some (pre, post) → l = pre ++ p0 :: p1 :: post
  | [], pre, post, h => by simp [splitFirst] at h
  | [a], pre, post, h => by simp [splitFirst] at h
  | a :: b :: rest, pre, post, h => by
    simp only [splitFirst] at h
    by_cases hab : a = p0 ∧ b = p1
    · rw [if_pos hab] at h
      simp only [Option.some_inj, Prod.mk.injEq] at h
      rw [← h.1, ← h.2, hab.1, hab.2]
      rfl
    · rw [if_neg hab] at h
      cases hs : splitFirst p0 p1 (b :: rest) with
      | none => rw [hs] at h; cases h
      | some pp =>
        obtain ⟨pre', post'⟩ := pp
        rw [hs] at h
        simp only [Option.some_inj, Prod.mk.injEq] at h
        have hr := splitFirst_eq p0 p1 (b :: rest) pre' post' hs
        rw [← h.1, ← h.2]
        simp [hr]

theorem splitFirst_length (p0 p1 : Char) (l pre post : List Char)
    (h : splitFirst p0 p1 l = some (pre, post)) : post.length + 2 ≤ l.length := by
  have := congrArg List.length (splitFirst_eq p0 p1 l pre post h)
  simp only [List.length_append, List.length_cons] at this
  omega

theorem splitFirst_none (p0 p1 : Char) : ∀ l : List Char, p0 ∉ l → splitFirst p0 p1 l = none
  | [], _ => rfl
  | [_], _ => rfl
  | a :: b :: rest, h => by
    have ha : ¬(a = p0 ∧ b = p1) := fun hab => h (hab.1 ▸ List.mem_cons_self a _)
    simp only [splitFirst, if_neg ha]
    rw [splitFirst_none p0 p1 (b :: rest) (fun hm => h (List.mem_cons_of_mem a hm))]

/-- A chunk of the span decomposition: literal text outside any matched
span, or the interior of one matched span. -/
inductive Chunk where
  | text : List Char → Chunk
  | math : List Char → Chunk
  deriving DecidableEq, Repr

/-- Fuel-driven decomposition of a text into the spans matched by the
non-greedy pattern `o0 o1 (.*?) c0 c1` (with `re.DOTALL`): the first
opening delimiter is located, then the nearest closing delimiter after
it; if either is missing no further span is matched and the whole rest is
literal text.  `l.length` fuel always suffices. -/
def spansGo (o0 o1 c0 c1 : Char) : Nat → List Char → List Chunk
  | 0, l => [Chunk.text l]
  | fuel + 1, l =>
    match splitFirst o0 o1 l with
    | none => [Chunk.text l]
    | some (pre, rest) =>
      match splitFirst c0 c1 rest with
      | none => [Chunk.text l]
      | some (int, post) => Chunk.text pre :: Chunk.math int :: spansGo o0 o1 c0 c1 fuel post

/-- The span decomposition used by the stage-3 substitutions. -/
def splitSpans (o0 o1 c0 c1 : Char) (l : List Char) : List Chunk :=
  spansGo o0 o1 c0 c1 l.length l

theorem spansGo_fuel (o0 o1 c0 c1 : Char) (f1 : Nat) : ∀ (f2 : Nat) (l : List Char),
    l.length ≤ f1 → l.length ≤ f2 → spansGo o0 o1 c0 c1 f1 l = spansGo o0 o1 c0 c1 f2 l := by
  induction f1 with
  | zero =>
    intro f2 l h1 _
    have : l = [] := List.eq_nil_of_length_eq_zero (by omega)
    subst this
    cases f2 with
    | zero => rfl
    | succ f2 => simp [spansGo, splitFirst]
  | succ f1 ih =>
    intro f2 l h1 h2
    cases f2 with
    | zero =>
      have : l = [] := List.eq_nil_of_length_eq_zero (by omega)
      subst this
      simp [spansGo, splitFirst]
    | succ f2 =>
      simp only [spansGo]
      split
      · rfl
      · rename_i pre rest ho
        split
        · rfl
        · rename_i int post hc
          have b1 := splitFirst_length o0 o1 l pre rest ho
          have b2 := splitFirst_length c0 c1 rest int post hc
          rw [ih f2 post (by omega) (by omega)]

theorem splitSpans_eq (o0 o1 c0 c1 : Char) (l : List Char) :
    splitSpans o0 o1 c0 c1 l =
      match splitFirst o0 o1 l with
      | none => [Chunk.text l]
      | some (pre, rest) =>
        match splitFirst c0 c1 rest with
        | none => [Chunk.text l]
        | some (int, post) =>
          Chunk.text pre :: Chunk.math int :: splitSpans o0 o1 c0 c1 post := by
  cases hl : l.length with
  | zero =>
    have : l = [] := List.eq_nil_of_length_eq_zero hl
    subst this
    simp [splitSpans, spansGo, splitFirst]
  | succ n =>
    show spansGo o0 o1 c0 c1 l.length l = _
    rw [hl]
    simp only [spansGo]
    split
    · rfl
    · rename_i pre rest ho
      split
      · rfl
      · rename_i int post hc
        have b1 := splitFirst_length o0 o1 l pre rest ho
        have b2 := splitFirst_length c0 c1 rest int post hc
        have hll : l.length = n + 1 := hl
        rw [spansGo_fuel o0 o1 c0 c1 n post.length post (by omega) (by omega)]
        rfl

/-- Reassemble chunks, applying `f` to each span interior and re-emitting
the delimiters around it, as the replacement callbacks `_fix_display` and
`_fix_inline` do. -/
def renderChunks (o0 o1 c0 c1 : Char) (f : List Char → List Char) : List Chunk → List Char
  | [] => []
  | Chunk.text t :: cs => t ++ renderChunks o0 o1 c0 c1 f cs
  | Chunk.math m :: cs => o0 :: o1 :: (f m ++ c0 :: c1 :: renderChunks o0 o1 c0 c1 f cs)

/-- A `re.sub` with a span-rewriting callback, as in
`_MATH_DISPLAY.sub(_fix_display, s)` and `_MATH_INLINE.sub(_fix_inline, s)`. -/
def subSpans (o0 o1 c0 c1 : Char) (f : List Char → List Char) (l : List Char) : List Char :=
  renderChunks o0 o1 c0 c1 f (splitSpans o0 o1 c0 c1 l)

/-- `sanitize_latex` from `app.py`: backslash collapse, layout-directive
removal, then the display-math and inline-math over-escape repairs, in
source order. -/
def sanitizeL (l : List Char) : List Char :=
  subSpans '\\' '(' '\\' ')' _fix_overescape_in_math
    (subSpans '$' '$' '$' '$' _fix_overescape_in_math
      (stripLayout (_collapse_command_backslashes l)))

/-- String-level `sanitize_latex`. -/
def sanitize_latex (s : String) : String := ⟨sanitizeL s.data⟩

theorem renderChunks_id_le (o0 o1 c0 c1 : Char) (n : Nat) : ∀ l : List Char, l.length ≤ n →
    renderChunks o0 o1 c0 c1 (fun m => m) (splitSpans o0 o1 c0 c1 l) = l := by
  induction n with
  | zero =>
    intro l hl
    have : l = [] := List.eq_nil_of_length_eq_zero (by omega)
    subst this
    rfl
  | succ n ih =>
    intro l hl
    rw [splitSpans_eq]
    split
    · simp [renderChunks]
    · rename_i pre rest ho
      split
      · simp [renderChunks]
      · rename_i int post hc
        have b1 := splitFirst_length o0 o1 l pre rest ho
        have b2 := splitFirst_length c0 c1 rest int post hc
        have he1 := splitFirst_eq o0 o1 l pre rest ho
        have he2 := splitFirst_eq c0 c1 rest int post hc
        simp only [renderChunks]
        rw [ih post (by omega), he1, he2]

/-- The span decomposition reassembles, with untouched interiors, to
exactly the input: delimiters and text outside spans appear verbatim. -/
theorem renderChunks_id_splitSpans (o0 o1 c0 c1 : Char) (l : List Char) :
    renderChunks o0 o1 c0 c1 (fun m => m) (splitSpans o0 o1 c0 c1 l) = l :=
  renderChunks_id_le o0 o1 c0 c1 l.length l (le_refl _)

/-- C6: stage 3 (the display-math substitution followed by the
inline-math substitution) rewrites only the interiors of matched spans.
Each pass factors its input into chunks whose identity re-rendering
reproduces the input exactly — so the delimiters and every character
outside all matched spans (in particular a backslash-escaped bracket
outside math) are untouched — and the pass output is the same chunk
sequence with `_fix_overescape_in_math` applied to the span interiors
only. -/
theorem c6_stage3_frame (s : List Char) :
    (∃ cs, renderChunks '$' '$' '$' '$' (fun m => m) cs = s ∧
      subSpans '$' '$' '$' '$' _fix_overescape_in_math s
        = renderChunks '$' '$' '$' '$' _fix_overescape_in_math cs) ∧
    (∃ cs, renderChunks '\\' '(' '\\' ')' (fun m => m) cs
          = subSpans '$' '$' '$' '$' _fix_overescape_in_math s ∧
      subSpans '\\' '(' '\\' ')' _fix_overescape_in_math
          (subSpans '$' '$' '$' '$' _fix_overescape_in_math s)
        = renderChunks '\\' '(' '\\' ')' _fix_overescape_in_math cs) :=
  ⟨⟨splitSpans '$' '$' '$' '$' s, renderChunks_id_splitSpans '$' '$' '$' '$' s, rfl⟩,
   ⟨splitSpans '\\' '(' '\\' ')' (subSpans '$' '$' '$' '$' _fix_overescape_in_math s),
    renderChunks_id_splitSpans '\\' '(' '\\' ')' _, rfl⟩⟩

/-- C4, counterexample: sanitizing "$$ x = 1 $$ [6pt] more text" does not
produce the single-spaced "$$ x = 1 $$ more text" of the claim: the
substitution deletes exactly the bracketed directive and keeps both
surrounding spaces. -/
theorem c4_layout_removal_cex :
    sanitize_latex "$$ x = 1 $$ [6pt] more text" ≠ "$$ x = 1 $$ more text" := by
  decide

/-- C4, amended: sanitizing "$$ x = 1 $$ [6pt] more text" deletes `[6pt]`
with its brackets and nothing else, so the two spaces that surrounded the
directive both remain. -/
theorem c4_layout_removal_amended :
    sanitize_latex "$$ x = 1 $$ [6pt] more text" = "$$ x = 1 $$  more text" := by rfl

/-- C3, counterexample: the sanitizer is not idempotent.  Three
backslashes before a letter lose one backslash per pass (the lookahead
rewrite matches at position 1, and the remaining run of two is too short
for the run rewrite); a doubled backslash before "=" inside display math
loses one backslash per pass in stage 3; and deleting a layout directive
can splice a new directive together. -/
theorem c3_not_idempotent_cex :
    sanitize_latex (sanitize_latex "\\\\\\a") ≠ sanitize_latex "\\\\\\a" ∧
    sanitize_latex (sanitize_latex "$$\\\\=a$$") ≠ sanitize_latex "$$\\\\=a$$" ∧
    sanitize_latex (sanitize_latex "[6[6pt]pt]") ≠ sanitize_latex "[6[6pt]pt]" :=
  ⟨by decide, by decide, by decide⟩

theorem collapse1_eq_self : ∀ l : List Char, '\\' ∉ l → collapse1 l = l
  | [], _ => rfl
  | [a], _ => rfl
  | a :: b :: rest, h => by
    have ha : a ≠ '\\' := fun e => h (e ▸ List.mem_cons_self a (b :: rest))
    simp only [collapse1]
    rw [if_neg (fun hand => ha hand.1)]
    rw [collapse1_eq_self (b :: rest) (fun hm => h (List.mem_cons_of_mem a hm))]

theorem collapse2Go_eq_self : ∀ l : List Char, '\\' ∉ l → collapse2Go 0 l = l
  | [], _ => rfl
  | c :: rest, h => by
    have hc : c ≠ '\\' := fun e => h (e ▸ List.mem_cons_self c rest)
    simp only [collapse2Go, if_neg hc]
    rw [collapse2Go_eq_self rest (fun hm => h (List.mem_cons_of_mem c hm))]
    simp [emitRun]

theorem stripLayout_eq_self : ∀ l : List Char, '[' ∉ l → stripLayout l = l
  | [], _ => rfl
  | c :: rest, h => by
    have hc : c ≠ '[' := fun e => h (e ▸ List.mem_cons_self c rest)
    rw [stripLayout_cons, if_neg hc,
      stripLayout_eq_self rest (fun hm => h (List.mem_cons_of_mem c hm))]

theorem replLeft_eq_self (l : List Char) (h : '\\' ∉ l) : replLeft l = l := by
  induction l with
  | nil => rfl
  | cons c rest ih =>
    have hc : c ≠ '\\' := fun e => h (e ▸ List.mem_cons_self c rest)
    rw [replLeft.eq_def]
    split
    · rename_i heq
      injection heq with h1 h2
      exact absurd h1 hc
    · rename_i c' rest' heq
      injection heq with h1 h2
      subst h1; subst h2
      rw [ih (fun hm => h (List.mem_cons_of_mem c hm))]
    · rename_i heq
      cases heq

theorem replRight_eq_self (l : List Char) (h : '\\' ∉ l) : replRight l = l := by
  induction l with
  | nil => rfl
  | cons c rest ih =>
    have hc : c ≠ '\\' := fun e => h (e ▸ List.mem_cons_self c rest)
    rw [replRight.eq_def]
    split
    · rename_i heq
      injection heq with h1 h2
      exact absurd h1 hc
    · rename_i c' rest' heq
      injection heq with h1 h2
      subst h1; subst h2
      rw [ih (fun hm => h (List.mem_cons_of_mem c hm))]
    · rename_i heq
      cases heq

theorem dropEsc_eq_self : ∀ l : List Char, '\\' ∉ l → dropEsc l = l
  | [], _ => rfl
  | [a], _ => rfl
  | a :: b :: rest, h => by
    have ha : a ≠ '\\' := fun e => h (e ▸ List.mem_cons_self a (b :: rest))
    simp only [dropEsc]
    rw [if_neg (fun hand => ha hand.1)]
    rw [dropEsc_eq_self (b :: rest) (fun hm => h (List.mem_cons_of_mem a hm))]

theorem fix_eq_self (m : List Char) (h : '\\' ∉ m) : _fix_overescape_in_math m = m := by
  unfold _fix_overescape_in_math
  rw [replLeft_eq_self m h, replRight_eq_self m h, dropEsc_eq_self m h]

theorem renderChunks_congr (o0 o1 c0 c1 : Char) (f g : List Char → List Char) :
    ∀ cs : List Chunk, (∀ m, Chunk.math m ∈ cs → f m = g m) →
      renderChunks o0 o1 c0 c1 f cs = renderChunks o0 o1 c0 c1 g cs
  | [], _ => rfl
  | Chunk.text t :: cs, h => by
    simp only [renderChunks]
    rw [renderChunks_congr o0 o1 c0 c1 f g cs (fun m hm => h m (List.mem_cons_of_mem _ hm))]
  | Chunk.math m :: cs, h => by
    simp only [renderChunks]
    rw [h m (List.mem_cons_self _ _),
      renderChunks_congr o0 o1 c0 c1 f g cs (fun m' hm => h m' (List.mem_cons_of_mem _ hm))]

theorem mem_of_mem_math_chunk (o0 o1 c0 c1 : Char) (x : Char) (m : List Char) :
    ∀ cs : List Chunk, Chunk.math m ∈ cs → x ∈ m →
      x ∈ renderChunks o0 o1 c0 c1 (fun i => i) cs
  | [], hm, _ => absurd hm (List.not_mem_nil _)
  | Chunk.text t :: cs, hm, hx => by
    have hm' : Chunk.math m ∈ cs := by
      rcases List.mem_cons.1 hm with h | h
      · exact absurd h (by simp)
      · exact h
    simp only [renderChunks]
    exact List.mem_append_right t (mem_of_mem_math_chunk o0 o1 c0 c1 x m cs hm' hx)
  | Chunk.math m' :: cs, hm, hx => by
    rcases List.mem_cons.1 hm with h | h
    · have hmm : m = m' := by injection h
      subst hmm
      simp only [renderChunks, List.mem_cons, List.mem_append]
      tauto
    · have hr := mem_of_mem_math_chunk o0 o1 c0 c1 x m cs h hx
      simp only [renderChunks, List.mem_cons, List.mem_append]
      tauto

theorem mem_of_math_splitSpans (o0 o1 c0 c1 : Char) (l m : List Char) (x : Char)
    (hm : Chunk.math m ∈ splitSpans o0 o1 c0 c1 l) (hx : x ∈ m) : x ∈ l := by
  rw [← renderChunks_id_splitSpans o0 o1 c0 c1 l]
  exact mem_of_mem_math_chunk o0 o1 c0 c1 x m _ hm hx

theorem subSpans_of_no_opener (o0 o1 c0 c1 : Char) (f : List Char → List Char)
    (l : List Char) (h : splitFirst o0 o1 l = none) : subSpans o0 o1 c0 c1 f l = l := by
  unfold subSpans
  rw [splitSpans_eq, h]
  simp [renderChunks]

/-- On backslash-free, bracket-free text every stage of the sanitizer is
the identity. -/
theorem sanitizeL_eq_self (l : List Char) (h1 : '\\' ∉ l) (h2 : '[' ∉ l) :
    sanitizeL l = l := by
  have e1 : _collapse_command_backslashes l = l := by
    unfold _collapse_command_backslashes collapse2
    rw [collapse1_eq_self l h1, collapse2Go_eq_self l h1]
  have e3 : subSpans '$' '$' '$' '$' _fix_overescape_in_math l = l := by
    unfold subSpans
    rw [renderChunks_congr '$' '$' '$' '$' _fix_overescape_in_math (fun m => m)
      (splitSpans '$' '$' '$' '$' l)
      (fun m hm => fix_eq_self m
        (fun hbs => h1 (mem_of_math_splitSpans '$' '$' '$' '$' l m '\\' hm hbs)))]
    exact renderChunks_id_splitSpans '$' '$' '$' '$' l
  have e4 : subSpans '\\' '(' '\\' ')' _fix_overescape_in_math l = l :=
    subSpans_of_no_opener '\\' '(' '\\' ')' _fix_overescape_in_math l
      (splitFirst_none '\\' '(' l h1)
  unfold sanitizeL
  rw [e1, stripLayout_eq_self l h2, e3, e4]

/-- C10: on input containing no backslash and no opening bracket the
sanitizer returns its input unchanged, even when the input contains
`$$...$$` delimiters. -/
theorem c10_identity_on_plain (s : String) (h1 : '\\' ∉ s.data) (h2 : '[' ∉ s.data) :
    sanitize_latex s = s := by
  cases s with
  | mk data =>
    show String.mk (sanitizeL data) = String.mk data
    rw [sanitizeL_eq_self data h1 h2]

/-- Witness for C10 on a plain text with display-math delimiters. -/
theorem c10_identity_on_plain_witness :
    sanitize_latex "energy: $$ E = m c^2 $$ ok" = "energy: $$ E = m c^2 $$ ok" :=
  c10_identity_on_plain "energy: $$ E = m c^2 $$ ok" (by decide) (by decide)

/-- C3, amended: idempotence does not hold in general (see the
counterexample), but it holds on every input free of backslashes and
opening brackets — there one pass is already the identity. -/
theorem c3_idempotent_amended (s : String) (h1 : '\\' ∉ s.data) (h2 : '[' ∉ s.data) :
    sanitize_latex (sanitize_latex s) = sanitize_latex s := by
  cases s with
  | mk data =>
    have e : sanitize_latex ⟨data⟩ = ⟨data⟩ := by
      show String.mk (sanitizeL data) = String.mk data
      rw [sanitizeL_eq_self data h1 h2]
    rw [e]
    exact e

/-- Witness for the amended C3 on a concrete math-bearing plain text. -/
theorem c3_idempotent_amended_witness :
    sanitize_latex (sanitize_latex "a $$ x = 1 $$ b") = sanitize_latex "a $$ x = 1 $$ b" :=
  c3_idempotent_amended "a $$ x = 1 $$ b" (by decide) (by decide)

/-- C5, counterexample: a doubled backslash followed by a space is not
always left unchanged by stage 1.  In a run of three backslashes before a
space, the last two form a doubled backslash followed by whitespace, yet
the run rewrite `\\{3,} → \\` collapses the whole run to a single
backslash. -/
theorem c5_linebreak_cex :
    _collapse_command_backslashes ['\\', '\\', '\\', ' '] = ['\\', ' '] ∧
    (['\\', '\\', '\\', ' '] : List Char) ≠ ['\\', ' '] :=
  ⟨by decide, by decide⟩

theorem collapse1_cons_of_ne (a : Char) (l : List Char) (ha : a ≠ '\\') :
    collapse1 (a :: l) = a :: collapse1 l := by
  cases l with
  | nil => rfl
  | cons b rest =>
    simp only [collapse1]
    rw [if_neg (fun hand => ha hand.1)]

theorem collapse1_head? : ∀ l : List Char, (collapse1 l).head? = l.head?
  | [] => rfl
  | [_] => rfl
  | a :: b :: rest => by
    simp only [collapse1]
    split
    · rename_i hcond
      simp [hcond.1]
    · rfl

theorem collapse1_ne_nil (l : List Char) (h : l ≠ []) : collapse1 l ≠ [] := by
  intro hc
  have h2 := collapse1_head? l
  rw [hc] at h2
  cases l with
  | nil => exact h rfl
  | cons a t => simp at h2

theorem collapse1_getLast? : ∀ l : List Char, (collapse1 l).getLast? = l.getLast?
  | [] => rfl
  | [_] => rfl
  | a :: b :: rest => by
    simp only [collapse1]
    split
    · rename_i hcond
      have hrne : rest ≠ [] := by
        intro e
        rw [e] at hcond
        exact absurd hcond.2.2 (by simp [headIsCmd])
      have h1 : collapse1 rest ≠ [] := collapse1_ne_nil rest hrne
      obtain ⟨x, xs, hx⟩ := List.exists_cons_of_ne_nil h1
      rw [hx, List.getLast?_cons_cons, ← hx, collapse1_getLast? rest]
      obtain ⟨y, ys, hy⟩ := List.exists_cons_of_ne_nil hrne
      rw [hy, List.getLast?_cons_cons, List.getLast?_cons_cons]
    · have h1 : collapse1 (b :: rest) ≠ [] := collapse1_ne_nil _ (by simp)
      obtain ⟨x, xs, hx⟩ := List.exists_cons_of_ne_nil h1
      rw [hx, List.getLast?_cons_cons, ← hx, collapse1_getLast? (b :: rest),
        List.getLast?_cons_cons]

theorem collapse1_cons2_of_ne (a c : Char) (l : List Char) (hc : c ≠ '\\') :
    collapse1 (a :: c :: l) = a :: collapse1 (c :: l) := by
  simp [collapse1, hc]

theorem collapse1_bsbs_cmd (c : Char) (l : List Char) (hc : isCmdChar c = true) :
    collapse1 ('\\' :: '\\' :: c :: l) = '\\' :: collapse1 (c :: l) := by
  simp [collapse1, headIsCmd, hc]

theorem collapse1_bsbs_noncmd (c : Char) (l : List Char) (hc : isCmdChar c = false) :
    collapse1 ('\\' :: '\\' :: c :: l) = '\\' :: collapse1 ('\\' :: c :: l) := by
  simp [collapse1, headIsCmd, hc]

theorem collapse1_bsbs (v : List Char)
    (hv : ∀ c, v.head? = some c → isCmdChar c = false ∧ c ≠ '\\') :
    collapse1 ('\\' :: '\\' :: v) = '\\' :: '\\' :: collapse1 v := by
  cases v with
  | nil => rfl
  | cons c v' =>
    obtain ⟨hcmd, hbs⟩ := hv c rfl
    rw [collapse1_bsbs_noncmd c v' hcmd, collapse1_cons2_of_ne '\\' c v' hbs]

theorem collapse1_append : ∀ (u v : List Char),
    u.getLast? ≠ some '\\' →
    (∀ c, v.head? = some c → isCmdChar c = false ∧ c ≠ '\\') →
    collapse1 (u ++ '\\' :: '\\' :: v) = collapse1 u ++ '\\' :: '\\' :: collapse1 v
  | [], v, _, hv => by
    simp only [List.nil_append]
    exact collapse1_bsbs v hv
  | [a], v, hu, hv => by
    have ha : a ≠ '\\' := by simpa using hu
    simp only [List.cons_append, List.nil_append]
    rw [collapse1_cons_of_ne a _ ha, collapse1_bsbs v hv]
    rfl
  | a :: b :: u', v, hu, hv => by
    have hu' : (b :: u').getLast? ≠ some '\\' := by rwa [List.getLast?_cons_cons] at hu
    by_cases hab : a = '\\' ∧ b = '\\'
    · obtain ⟨ha, hb⟩ := hab
      subst ha; subst hb
      cases u' with
      | nil => simp at hu
      | cons c u'' =>
        have hu'' : (c :: u'').getLast? ≠ some '\\' := by
          rwa [List.getLast?_cons_cons] at hu'
        simp only [List.cons_append]
        cases hc : isCmdChar c with
        | true =>
          rw [collapse1_bsbs_cmd c (u'' ++ '\\' :: '\\' :: v) hc,
            collapse1_bsbs_cmd c u'' hc]
          rw [show (c :: (u'' ++ '\\' :: '\\' :: v)) = (c :: u'') ++ '\\' :: '\\' :: v
            from rfl]
          rw [collapse1_append (c :: u'') v hu'' hv]
          rfl
        | false =>
          rw [collapse1_bsbs_noncmd c (u'' ++ '\\' :: '\\' :: v) hc,
            collapse1_bsbs_noncmd c u'' hc]
          rw [show ('\\' :: c :: (u'' ++ '\\' :: '\\' :: v))
              = ('\\' :: c :: u'') ++ '\\' :: '\\' :: v from rfl]
          rw [collapse1_append ('\\' :: c :: u'') v hu' hv]
          rfl
    · simp only [List.cons_append]
      have hstep : ∀ r : List Char, collapse1 (a :: b :: r) = a :: collapse1 (b :: r) := by
        intro r
        by_cases ha : a = '\\'
        · have hb : b ≠ '\\' := fun e => hab ⟨ha, e⟩
          exact collapse1_cons2_of_ne a b r hb
        · exact collapse1_cons_of_ne a (b :: r) ha
      rw [hstep (u' ++ '\\' :: '\\' :: v), hstep u']
      rw [show (b :: (u' ++ '\\' :: '\\' :: v)) = (b :: u') ++ '\\' :: '\\' :: v from rfl]
      rw [collapse1_append (b :: u') v hu' hv]
      rfl

theorem collapse2Go_append : ∀ (u : List Char) (p : Nat) (Z : List Char),
    u ≠ [] → u.getLast? ≠ some '\\' →
    collapse2Go p (u ++ Z) = collapse2Go p u ++ collapse2Go 0 Z
  | [], _, _, hne, _ => absurd rfl hne
  | [c], p, Z, _, hlast => by
    have hc : c ≠ '\\' := by simpa using hlast
    simp only [List.cons_append, List.nil_append, collapse2Go, if_neg hc]
    simp [emitRun, List.append_assoc]
  | c :: c' :: u', p, Z, _, hlast => by
    have hlast' : (c' :: u').getLast? ≠ some '\\' := by
      rwa [List.getLast?_cons_cons] at hlast
    have gostep : ∀ (q : Nat) (d : Char) (r : List Char), collapse2Go q (d :: r)
        = if d = '\\' then collapse2Go (q + 1) r else emitRun q ++ d :: collapse2Go 0 r :=
      fun _ _ _ => rfl
    by_cases hc : c = '\\'
    · subst hc
      show collapse2Go (p + 1) ((c' :: u') ++ Z)
        = collapse2Go (p + 1) (c' :: u') ++ collapse2Go 0 Z
      exact collapse2Go_append (c' :: u') (p + 1) Z (by simp) hlast'
    · have e1 : collapse2Go p ((c :: c' :: u') ++ Z)
          = emitRun p ++ c :: collapse2Go 0 ((c' :: u') ++ Z) := by
        rw [show (c :: c' :: u') ++ Z = c :: ((c' :: u') ++ Z) from rfl, gostep, if_neg hc]
      have e2 : collapse2Go p (c :: c' :: u')
          = emitRun p ++ c :: collapse2Go 0 (c' :: u') := by
        rw [gostep, if_neg hc]
      rw [e1, e2, collapse2Go_append (c' :: u') 0 Z (by simp) hlast']
      simp [List.append_assoc]

theorem collapse2Go_bsbs (W : List Char) (hW : W.head? ≠ some '\\') :
    collapse2Go 0 ('\\' :: '\\' :: W) = '\\' :: '\\' :: collapse2Go 0 W := by
  cases W with
  | nil => rfl
  | cons c W' =>
    have hc : c ≠ '\\' := by simpa using hW
    simp only [collapse2Go, if_pos rfl, if_neg hc]
    simp [emitRun, List.replicate]

/-- C5, amended: stage 1 leaves a doubled backslash unchanged whenever it
is not part of a longer backslash run and is followed by the end of the
text or by a character that is not a Latin letter, a square bracket or
another backslash (whitespace in particular); around such a doubled
backslash, stage 1 acts independently on the two sides.  (The claim as
frozen also covers a doubled backslash inside a longer run, which the
run rewrite does collapse — see the counterexample.) -/
theorem c5_linebreak_amended (u v : List Char)
    (hu : u.getLast? ≠ some '\\')
    (hv : ∀ c, v.head? = some c → isCmdChar c = false ∧ c ≠ '\\') :
    _collapse_command_backslashes (u ++ '\\' :: '\\' :: v)
      = _collapse_command_backslashes u ++ '\\' :: '\\' :: _collapse_command_backslashes v := by
  unfold _collapse_command_backslashes collapse2
  rw [collapse1_append u v hu hv]
  have hvhead : (collapse1 v).head? ≠ some '\\' := by
    rw [collapse1_head? v]
    intro e
    cases v with
    | nil => simp at e
    | cons c v' =>
      simp only [List.head?, Option.some_inj] at e
      exact (hv c rfl).2 e
  rcases eq_or_ne u [] with rfl | hne
  · simp only [collapse1, List.nil_append]
    rw [collapse2Go_bsbs _ hvhead]
    rfl
  · have h1 : collapse1 u ≠ [] := collapse1_ne_nil u hne
    have h2 : (collapse1 u).getLast? ≠ some '\\' := by
      rw [collapse1_getLast? u]; exact hu
    rw [collapse2Go_append (collapse1 u) 0 ('\\' :: '\\' :: collapse1 v) h1 h2]
    rw [collapse2Go_bsbs _ hvhead]

/-- Witness for the amended C5: the doubled backslash of "a\\ b" (exactly
the instance named by the spec) survives stage 1, which acts separately
on "a" and " b". -/
theorem c5_linebreak_amended_witness :
    _collapse_command_backslashes (['a'] ++ '\\' :: '\\' :: [' ', 'b'])
      = _collapse_command_backslashes ['a']
          ++ '\\' :: '\\' :: _collapse_command_backslashes [' ', 'b'] :=
  c5_linebreak_amended ['a'] [' ', 'b'] (by decide)
    (by intro c hc; cases hc; decide)

end ChatbotSpec
